import Mathlib

/-!
Verification of the MovieChain director-ingestion pipeline
(`GamesWithFriends/Features/MovieChain/Scripts/add_directors.py`).

The pipeline reads two tab-separated extracts (IMDb `title.principals` and
`name.basics`), filters the first against the key set of the pre-existing
`movies` table, resolves director names from the second with an early-exit
scan, drops entries without a resolved name, and rebuilds the `directors`
and `movie_directors` tables from scratch.

The embedding below models the data rows, the Python dict/set structures as
insertion-ordered association lists (Python dicts preserve insertion order;
Python sets are modelled as deduplicated lists), and each pipeline stage as
a pure function.  The SQLite database is a record of its three relevant
tables; `DROP TABLE` sets a table to `none`, `CREATE TABLE` to `some []`,
and inserts append rows.  The FTS index, the secondary indexes, `VACUUM`
and the gzip compression step do not alter the rows of any of the three
tables and are not part of the row-level state.
-/

/-- A parsed record of Extract A (`title.principals.tsv`): the fields the
script reads via `row.get`.  A missing or empty field is the empty string
(both are falsy under the script's `not tconst` test, and a missing
`category` is never equal to the string `director`). -/
structure PrincipalsRow where
  tconst : String
  nconst : String
  category : String
deriving DecidableEq, Repr

/-- A parsed record of Extract B (`name.basics.tsv`). -/
structure NameRow where
  nconst : String
  primaryName : String
deriving DecidableEq, Repr

/-- The in-memory multimap `director_movies`: Python dict from nconst to a
set of tconsts, as an insertion-ordered association list whose value lists
are deduplicated. -/
abbrev Multimap := List (String × List String)

/-- The resolved-name map `director_names`: Python dict from nconst to name. -/
abbrev NameMap := List (String × String)

/-- Lookup in an association list, first match wins (Python dict lookup). -/
def mapLookup : NameMap → String → Option String
  | [], _ => none
  | (k, v) :: rest, key => if k = key then some v else mapLookup rest key

/-- Python `d[k] = v` on a dict: overwrite in place if the key exists,
append at the end otherwise (dicts keep insertion order). -/
def mapInsert : NameMap → String → String → NameMap
  | [], k, v => [(k, v)]
  | (k', v') :: rest, k, v =>
    if k' = k then (k', v) :: rest else (k', v') :: mapInsert rest k v

/-- Lookup of a multimap entry by key. -/
def mmLookup : Multimap → String → Option (List String)
  | [], _ => none
  | (k, vs) :: rest, key => if k = key then some vs else mmLookup rest key

/-- The movie set stored under a key, empty when the key is absent. -/
def mmGet (mm : Multimap) (k : String) : List String :=
  (mmLookup mm k).getD []

/-- The Python fragment
`if nconst not in director_movies: director_movies[nconst] = set()` followed
by `director_movies[nconst].add(tconst)`: create the entry on first sight
(appended at the end, dict insertion order), and add the value with set
semantics (no duplicate). -/
def mmInsert : Multimap → String → String → Multimap
  | [], k, v => [(k, [v])]
  | (k', vs) :: rest, k, v =>
    if k' = k then (k', if v ∈ vs then vs else vs ++ [v]) :: rest
    else (k', vs) :: mmInsert rest k v

/-- The keys of the multimap in iteration order (`director_movies.keys()`). -/
def mmKeys (mm : Multimap) : List String := mm.map Prod.fst

/-- One loop iteration of `extract_director_relationships`: skip unless
`category == 'director'`, skip when a key field is falsy or the movie is
not in the pre-loaded set, otherwise add the relationship. -/
def relStep (existing : List String) (mm : Multimap) (row : PrincipalsRow) : Multimap :=
  if row.category ≠ "director" then mm
  else if row.tconst = "" ∨ row.nconst = "" ∨ row.tconst ∉ existing then mm
  else mmInsert mm row.nconst row.tconst

/-- `DirectorDatabaseBuilder.extract_director_relationships`: stream Extract
A once, folding `relStep` over its records starting from the empty dict. -/
def extract_director_relationships (existing : List String)
    (rows : List PrincipalsRow) : Multimap :=
  rows.foldl (relStep existing) []

/-- The script's `if name and name != '\\N'` test: the name field is
present (truthy) and is not the IMDb null sentinel (the two characters
backslash-N). -/
def validName (name : String) : Prop :=
  name ≠ "" ∧ name ≠ "\\N"

instance (name : String) : Decidable (validName name) := by
  unfold validName; infer_instance

/-- Account for one consumed record in the result of the rest of the
resolver loop. -/
def bump (r : NameMap × Nat × Bool) : NameMap × Nat × Bool :=
  (r.1, r.2.1 + 1, r.2.2)

/-- The loop of `extract_director_names`, returning the accumulated name
map, the number of records consumed from Extract B, and whether the loop
ended via the early-exit `break` (true) or by exhausting the extract
(false).  A record whose `nconst` is not needed is skipped via `continue`,
which also skips the break test; on a needed record a valid name is
recorded and `names_found` incremented, then the loop breaks as soon as
`names_found == len(needed_nconsts)` (`k` below).  The two inner branches
spell out the Python locals: with a valid name the map gains the entry and
the counter steps, otherwise both are unchanged, and in either case the
break test compares the updated counter with `k`. -/
def resolveAux (needed : List String) (k : Nat) :
    NameMap → Nat → List NameRow → NameMap × Nat × Bool
  | m, _, [] => (m, 0, false)
  | m, found, row :: rest =>
    if row.nconst ∈ needed then
      if validName row.primaryName then
        if found + 1 = k then (mapInsert m row.nconst row.primaryName, 1, true)
        else bump (resolveAux needed k (mapInsert m row.nconst row.primaryName) (found + 1) rest)
      else
        if found = k then (m, 1, true)
        else bump (resolveAux needed k m found rest)
    else bump (resolveAux needed k m found rest)

/-- `DirectorDatabaseBuilder.extract_director_names`: the resulting
nconst-to-name map. -/
def extract_director_names (needed : List String) (rows : List NameRow) : NameMap :=
  (resolveAux needed needed.length [] 0 rows).1

/-- How many records of Extract B the name resolver reads. -/
def resolverConsumed (needed : List String) (rows : List NameRow) : Nat :=
  (resolveAux needed needed.length [] 0 rows).2.1

/-- Whether the name resolver ended through the early-exit break. -/
def resolverStopped (needed : List String) (rows : List NameRow) : Bool :=
  (resolveAux needed needed.length [] 0 rows).2.2

/-- The effect of one Extract B record on the name map, with no early
exit: record the name when the key is needed and the name is valid. -/
def recordStep (needed : List String) (m : NameMap) (row : NameRow) : NameMap :=
  if row.nconst ∈ needed ∧ validName row.primaryName then
    mapInsert m row.nconst row.primaryName
  else m

/-- The number of records of `rows` that trigger a valid-name recording:
needed key and valid name.  The script's `names_found` counter counts
exactly these events, with multiplicity. -/
def eventCount (needed : List String) (rows : List NameRow) : Nat :=
  (rows.filter (fun r => decide (r.nconst ∈ needed ∧ validName r.primaryName))).length

/-- The loop of `insert_movie_directors`: for each entry in iteration
order, one `(tconst, nconst)` row per stored movie key. -/
def linksOf : Multimap → List (String × String)
  | [] => []
  | (n, ts) :: rest => ts.map (fun t => (t, n)) ++ linksOf rest

/-- The row-level state of the SQLite database: the pre-existing `movies`
table (tconst plus the rest of the row, which the script never reads), and
the two derived tables, `none` when dropped. -/
structure DB where
  movies : List (String × String)
  directors : Option NameMap
  movie_directors : Option (List (String × String))
deriving DecidableEq, Repr

/-- `drop_existing_tables`: `DROP TABLE IF EXISTS` on both derived tables
(and on the FTS table, which is outside the row-level state). -/
def drop_existing_tables (db : DB) : DB :=
  { db with directors := none, movie_directors := none }

/-- `create_tables`: fresh empty `directors` and `movie_directors`. -/
def create_tables (db : DB) : DB :=
  { db with directors := some [], movie_directors := some [] }

/-- `get_existing_movie_ids`: `SELECT tconst FROM movies`, the projection
of the key column. -/
def get_existing_movie_ids (db : DB) : List String :=
  db.movies.map Prod.fst

/-- `insert_directors`: batched `INSERT INTO directors` of every
`(nconst, name)` pair in map iteration order; batching only splits the
commits, the final rows are the whole map appended to the table. -/
def insert_directors (db : DB) (names : NameMap) : DB :=
  { db with directors := some (db.directors.getD [] ++ names) }

/-- `insert_movie_directors`: batched `INSERT INTO movie_directors` of one
`(tconst, nconst)` row per multimap pair, in iteration order. -/
def insert_movie_directors (db : DB) (dm : Multimap) : DB :=
  { db with movie_directors := some (db.movie_directors.getD [] ++ linksOf dm) }

/-- Step 6 of `build`: the dict comprehension keeping exactly the multimap
entries whose key has a resolved name. -/
def joinFilter (dm : Multimap) (names : NameMap) : Multimap :=
  dm.filter (fun p => (mapLookup names p.1).isSome)

/-- `DirectorDatabaseBuilder.build`, steps 1-8: drop, create, load the
movie keys, extract relationships from Extract A, resolve names from
Extract B, filter, insert directors, insert links.  Steps 9-14 (FTS index,
secondary indexes, vacuum, stats, compression) do not change the rows of
`movies`, `directors` or `movie_directors`. -/
def build (db : DB) (rowsA : List PrincipalsRow) (rowsB : List NameRow) : DB :=
  let db1 := create_tables (drop_existing_tables db)
  let existing := get_existing_movie_ids db1
  let dm := extract_director_relationships existing rowsA
  let names := extract_director_names (mmKeys dm) rowsB
  let dm2 := joinFilter dm names
  let db2 := insert_directors db1 names
  insert_movie_directors db2 dm2

/-- The worked example of the spec: existing movies t1 and t2, with some
stale derived tables left over from an earlier run. -/
def exDB : DB :=
  { movies := [("t1", "Movie One"), ("t2", "Movie Two")]
    directors := some [("n9", "Stale")]
    movie_directors := some [("t9", "n9")] }

/-- Extract A of the worked example: (t1,n1,director), (t1,n1,actor),
(t2,n2,director). -/
def exRowsA : List PrincipalsRow :=
  [{ tconst := "t1", nconst := "n1", category := "director" },
   { tconst := "t1", nconst := "n1", category := "actor" },
   { tconst := "t2", nconst := "n2", category := "director" }]

/-- Extract B of the worked example: n1 resolves to Alice, n2 carries the
null sentinel. -/
def exRowsB : List NameRow :=
  [{ nconst := "n1", primaryName := "Alice" },
   { nconst := "n2", primaryName := "\\N" }]

/-- Every entry of the multimap stores only movie keys drawn from `ex`. -/
def mmAllIn (mm : Multimap) (ex : List String) : Prop :=
  ∀ p ∈ mm, ∀ t ∈ p.2, t ∈ ex

theorem mem_mapInsert {m : NameMap} {k v : String} {p : String × String}
    (h : p ∈ mapInsert m k v) : p ∈ m ∨ p.1 = k := by
  induction m with
  | nil =>
    simp only [mapInsert, List.mem_singleton] at h
    exact Or.inr (by rw [h])
  | cons hd tl ih =>
    obtain ⟨k', v'⟩ := hd
    simp only [mapInsert] at h
    by_cases hk : k' = k
    · rw [if_pos hk] at h
      rcases List.mem_cons.mp h with h1 | h1
      · exact Or.inr (by rw [h1]; exact hk)
      · exact Or.inl (List.mem_cons_of_mem _ h1)
    · rw [if_neg hk] at h
      rcases List.mem_cons.mp h with h1 | h1
      · exact Or.inl (by rw [h1]; exact List.mem_cons_self _ _)
      · rcases ih h1 with h2 | h2
        · exact Or.inl (List.mem_cons_of_mem _ h2)
        · exact Or.inr h2

theorem mapLookup_isSome_of_mem {m : NameMap} {k v : String}
    (h : (k, v) ∈ m) : (mapLookup m k).isSome := by
  induction m with
  | nil => simp at h
  | cons hd tl ih =>
    obtain ⟨k', v'⟩ := hd
    simp only [mapLookup]
    by_cases hk : k' = k
    · simp [hk]
    · simp only [if_neg hk]
      rcases List.mem_cons.mp h with h2 | h2
      · exact absurd (congrArg Prod.fst h2).symm hk
      · exact ih h2

theorem mapLookup_mem {m : NameMap} {k v : String}
    (h : mapLookup m k = some v) : (k, v) ∈ m := by
  induction m with
  | nil => simp [mapLookup] at h
  | cons hd tl ih =>
    obtain ⟨k', v'⟩ := hd
    simp only [mapLookup] at h
    by_cases hk : k' = k
    · rw [if_pos hk] at h
      rw [hk, Option.some_inj.mp h]
      exact List.mem_cons_self _ _
    · rw [if_neg hk] at h
      exact List.mem_cons_of_mem _ (ih h)

theorem mem_mmKeys_mmInsert {mm : Multimap} {k v x : String}
    (h : x ∈ mmKeys (mmInsert mm k v)) : x ∈ mmKeys mm ∨ x = k := by
  induction mm with
  | nil =>
    simp only [mmInsert, mmKeys, List.map_cons, List.map_nil, List.mem_singleton] at h
    right; exact h
  | cons hd tl ih =>
    obtain ⟨k', vs⟩ := hd
    simp only [mmInsert] at h
    by_cases hk : k' = k
    · rw [if_pos hk] at h
      simp only [mmKeys, List.map_cons, List.mem_cons] at h ⊢
      exact Or.inl h
    · rw [if_neg hk] at h
      simp only [mmKeys, List.map_cons, List.mem_cons] at h ⊢
      rcases h with h | h
      · left; left; exact h
      · rcases ih h with h2 | h2
        · left; right; exact h2
        · right; exact h2

theorem mmKeys_mmInsert_nodup {mm : Multimap} {k v : String}
    (h : (mmKeys mm).Nodup) : (mmKeys (mmInsert mm k v)).Nodup := by
  induction mm with
  | nil => simp [mmInsert, mmKeys]
  | cons hd tl ih =>
    obtain ⟨k', vs⟩ := hd
    simp only [mmKeys, List.map_cons, List.nodup_cons] at h
    simp only [mmInsert]
    by_cases hk : k' = k
    · rw [if_pos hk]
      simp only [mmKeys, List.map_cons, List.nodup_cons]
      exact h
    · rw [if_neg hk]
      simp only [mmKeys, List.map_cons, List.nodup_cons]
      refine ⟨fun hmem => ?_, ih h.2⟩
      rcases mem_mmKeys_mmInsert hmem with h2 | h2
      · exact h.1 h2
      · exact hk h2

theorem mmInsert_vals_nodup {mm : Multimap} {k v : String}
    (h : ∀ p ∈ mm, p.2.Nodup) : ∀ p ∈ mmInsert mm k v, p.2.Nodup := by
  induction mm with
  | nil =>
    intro p hp
    simp only [mmInsert, List.mem_singleton] at hp
    rw [hp]; simp
  | cons hd tl ih =>
    obtain ⟨k', vs⟩ := hd
    intro p hp
    simp only [mmInsert] at hp
    by_cases hk : k' = k
    · rw [if_pos hk] at hp
      rcases List.mem_cons.mp hp with h1 | h1
      · rw [h1]
        by_cases hv : v ∈ vs
        · rw [if_pos hv]; exact h _ (List.mem_cons_self _ _)
        · rw [if_neg hv]
          have hvs : vs.Nodup := h _ (List.mem_cons_self _ _)
          simpa [List.nodup_append] using ⟨hvs, hv⟩
      · exact h _ (List.mem_cons_of_mem _ h1)
    · rw [if_neg hk] at hp
      rcases List.mem_cons.mp hp with h1 | h1
      · rw [h1]; exact h _ (List.mem_cons_self _ _)
      · exact ih (fun q hq => h _ (List.mem_cons_of_mem _ hq)) _ h1

theorem mmInsert_allIn {mm : Multimap} {ex : List String} {k v : String}
    (h : mmAllIn mm ex) (hv : v ∈ ex) : mmAllIn (mmInsert mm k v) ex := by
  induction mm with
  | nil =>
    intro p hp t ht
    simp only [mmInsert, List.mem_singleton] at hp
    rw [hp] at ht
    simp only [List.mem_singleton] at ht
    rw [ht]; exact hv
  | cons hd tl ih =>
    obtain ⟨k', vs⟩ := hd
    intro p hp t ht
    simp only [mmInsert] at hp
    by_cases hk : k' = k
    · rw [if_pos hk] at hp
      rcases List.mem_cons.mp hp with h1 | h1
      · rw [h1] at ht
        by_cases hvv : v ∈ vs
        · rw [if_pos hvv] at ht
          exact h _ (List.mem_cons_self _ _) _ ht
        · rw [if_neg hvv] at ht
          rcases List.mem_append.mp ht with h2 | h2
          · exact h _ (List.mem_cons_self _ _) _ h2
          · rw [List.mem_singleton.mp h2]; exact hv
      · exact h _ (List.mem_cons_of_mem _ h1) _ ht
    · rw [if_neg hk] at hp
      rcases List.mem_cons.mp hp with h1 | h1
      · rw [h1] at ht; exact h _ (List.mem_cons_self _ _) _ ht
      · exact ih (fun q hq => h _ (List.mem_cons_of_mem _ hq)) _ h1 _ ht

theorem mmInsert_vals_nonempty {mm : Multimap} {k v : String}
    (h : ∀ p ∈ mm, p.2 ≠ []) : ∀ p ∈ mmInsert mm k v, p.2 ≠ [] := by
  induction mm with
  | nil =>
    intro p hp
    simp only [mmInsert, List.mem_singleton] at hp
    rw [hp]; simp
  | cons hd tl ih =>
    obtain ⟨k', vs⟩ := hd
    intro p hp
    simp only [mmInsert] at hp
    by_cases hk : k' = k
    · rw [if_pos hk] at hp
      rcases List.mem_cons.mp hp with h1 | h1
      · rw [h1]
        by_cases hv : v ∈ vs
        · rw [if_pos hv]; exact h _ (List.mem_cons_self _ _)
        · rw [if_neg hv]; simp
      · exact h _ (List.mem_cons_of_mem _ h1)
    · rw [if_neg hk] at hp
      rcases List.mem_cons.mp hp with h1 | h1
      · rw [h1]; exact h _ (List.mem_cons_self _ _)
      · exact ih (fun q hq => h _ (List.mem_cons_of_mem _ hq)) _ h1

theorem mmGet_mmInsert_self (mm : Multimap) (k v : String) :
    mmGet (mmInsert mm k v) k =
      if v ∈ mmGet mm k then mmGet mm k else mmGet mm k ++ [v] := by
  induction mm with
  | nil => simp [mmGet, mmInsert, mmLookup]
  | cons hd tl ih =>
    obtain ⟨k', vs⟩ := hd
    simp only [mmInsert]
    by_cases hk : k' = k
    · rw [if_pos hk]
      simp [mmGet, mmLookup, hk]
    · rw [if_neg hk]
      simp only [mmGet, mmLookup, if_neg hk]
      exact ih

theorem foldl_relStep_preserve (ex : List String) (P : Multimap → Prop)
    (hstep : ∀ mm row, P mm → P (relStep ex mm row)) :
    ∀ (rows : List PrincipalsRow) (mm : Multimap), P mm → P (rows.foldl (relStep ex) mm)
  | [], _, h => h
  | row :: rest, mm, h =>
    foldl_relStep_preserve ex P hstep rest _ (hstep mm row h)

theorem relStep_eq_or (ex : List String) (mm : Multimap) (row : PrincipalsRow) :
    relStep ex mm row = mm ∨
      (row.tconst ∈ ex ∧ relStep ex mm row = mmInsert mm row.nconst row.tconst) := by
  unfold relStep
  by_cases h1 : row.category ≠ "director"
  · rw [if_pos h1]; exact Or.inl rfl
  · rw [if_neg h1]
    by_cases h2 : row.tconst = "" ∨ row.nconst = "" ∨ row.tconst ∉ ex
    · rw [if_pos h2]; exact Or.inl rfl
    · rw [if_neg h2]
      push_neg at h2
      exact Or.inr ⟨h2.2.2, rfl⟩

theorem extract_allIn (ex : List String) (rows : List PrincipalsRow) :
    mmAllIn (extract_director_relationships ex rows) ex := by
  refine foldl_relStep_preserve ex (mmAllIn · ex) ?_ rows [] ?_
  · intro mm row h
    rcases relStep_eq_or ex mm row with h1 | ⟨hv, h1⟩
    · rw [h1]; exact h
    · rw [h1]; exact mmInsert_allIn h hv
  · intro p hp; exact absurd hp (List.not_mem_nil p)

theorem extract_keys_nodup (ex : List String) (rows : List PrincipalsRow) :
    (mmKeys (extract_director_relationships ex rows)).Nodup := by
  refine foldl_relStep_preserve ex (fun mm => (mmKeys mm).Nodup) ?_ rows [] (by simp [mmKeys])
  intro mm row h
  rcases relStep_eq_or ex mm row with h1 | ⟨_, h1⟩
  · rw [h1]; exact h
  · rw [h1]; exact mmKeys_mmInsert_nodup h

theorem extract_vals_nodup (ex : List String) (rows : List PrincipalsRow) :
    ∀ p ∈ extract_director_relationships ex rows, p.2.Nodup := by
  refine foldl_relStep_preserve ex (fun mm => ∀ p ∈ mm, p.2.Nodup) ?_ rows [] ?_
  · intro mm row h
    rcases relStep_eq_or ex mm row with h1 | ⟨_, h1⟩
    · rw [h1]; exact h
    · rw [h1]; exact mmInsert_vals_nodup h
  · intro p hp; exact absurd hp (List.not_mem_nil p)

theorem extract_vals_nonempty (ex : List String) (rows : List PrincipalsRow) :
    ∀ p ∈ extract_director_relationships ex rows, p.2 ≠ [] := by
  refine foldl_relStep_preserve ex (fun mm => ∀ p ∈ mm, p.2 ≠ []) ?_ rows [] ?_
  · intro mm row h
    rcases relStep_eq_or ex mm row with h1 | ⟨_, h1⟩
    · rw [h1]; exact h
    · rw [h1]; exact mmInsert_vals_nonempty h
  · intro p hp; exact absurd hp (List.not_mem_nil p)

theorem mem_linksOf {dm : Multimap} {t n : String} :
    (t, n) ∈ linksOf dm ↔ ∃ ts, (n, ts) ∈ dm ∧ t ∈ ts := by
  induction dm with
  | nil => simp [linksOf]
  | cons hd tl ih =>
    obtain ⟨n', ts'⟩ := hd
    simp only [linksOf, List.mem_append, List.mem_map, List.mem_cons, Prod.mk.injEq]
    constructor
    · rintro (⟨t', ht', rfl, rfl⟩ | h)
      · exact ⟨ts', Or.inl ⟨rfl, rfl⟩, ht'⟩
      · rcases ih.mp h with ⟨ts, hts, ht⟩
        exact ⟨ts, Or.inr hts, ht⟩
    · rintro ⟨ts, ⟨rfl, rfl⟩ | hts, ht⟩
      · exact Or.inl ⟨t, ht, rfl, rfl⟩
      · exact Or.inr (ih.mpr ⟨ts, hts, ht⟩)

theorem linksOf_snd_mem {dm : Multimap} {t n : String}
    (h : (t, n) ∈ linksOf dm) : n ∈ mmKeys dm := by
  rcases mem_linksOf.mp h with ⟨ts, hts, _⟩
  exact List.mem_map.mpr ⟨(n, ts), hts, rfl⟩

theorem linksOf_nodup {dm : Multimap} (hk : (mmKeys dm).Nodup)
    (hv : ∀ p ∈ dm, p.2.Nodup) : (linksOf dm).Nodup := by
  induction dm with
  | nil => simp [linksOf]
  | cons hd tl ih =>
    obtain ⟨n, ts⟩ := hd
    simp only [mmKeys, List.map_cons, List.nodup_cons] at hk
    simp only [linksOf]
    rw [List.nodup_append]
    refine ⟨?_, ih hk.2 (fun p hp => hv p (List.mem_cons_of_mem _ hp)), ?_⟩
    · exact (hv (n, ts) (List.mem_cons_self _ _)).map
        (fun a b hab => congrArg Prod.fst hab)
    · intro a ha hb
      obtain ⟨t, _, rfl⟩ := List.mem_map.mp ha
      exact hk.1 (linksOf_snd_mem hb)

theorem mem_joinFilter {dm : Multimap} {names : NameMap} {p : String × List String} :
    p ∈ joinFilter dm names ↔ p ∈ dm ∧ (mapLookup names p.1).isSome := by
  simp [joinFilter, List.mem_filter]

theorem joinFilter_keys_nodup {dm : Multimap} {names : NameMap}
    (h : (mmKeys dm).Nodup) : (mmKeys (joinFilter dm names)).Nodup :=
  List.Nodup.sublist ((dm.filter_sublist).map Prod.fst) h

theorem build_movies (db : DB) (rowsA : List PrincipalsRow) (rowsB : List NameRow) :
    (build db rowsA rowsB).movies = db.movies := rfl

theorem build_directors (db : DB) (rowsA : List PrincipalsRow) (rowsB : List NameRow) :
    (build db rowsA rowsB).directors =
      some (extract_director_names
        (mmKeys (extract_director_relationships (get_existing_movie_ids db) rowsA)) rowsB) := rfl

theorem build_links (db : DB) (rowsA : List PrincipalsRow) (rowsB : List NameRow) :
    (build db rowsA rowsB).movie_directors =
      some (linksOf (joinFilter
        (extract_director_relationships (get_existing_movie_ids db) rowsA)
        (extract_director_names
          (mmKeys (extract_director_relationships (get_existing_movie_ids db) rowsA)) rowsB))) := rfl

theorem eventCount_nil (needed : List String) : eventCount needed [] = 0 := rfl

theorem eventCount_cons (needed : List String) (row : NameRow) (rest : List NameRow) :
    eventCount needed (row :: rest) =
      if row.nconst ∈ needed ∧ validName row.primaryName
      then eventCount needed rest + 1 else eventCount needed rest := by
  simp only [eventCount, List.filter_cons]
  by_cases h : row.nconst ∈ needed ∧ validName row.primaryName
  · simp [h]
  · simp [h]

theorem resolveAux_nil_needed (k : Nat) (m : NameMap) (found : Nat) :
    ∀ rows : List NameRow, resolveAux [] k m found rows = (m, rows.length, false) := by
  intro rows
  induction rows with
  | nil => rfl
  | cons row rest ih => simp [resolveAux, bump, ih]

theorem resolveAux_not_stopped {needed : List String} {k : Nat} :
    ∀ (rows : List NameRow) (m : NameMap) (found : Nat),
      (resolveAux needed k m found rows).2.2 = false →
      resolveAux needed k m found rows =
        (rows.foldl (recordStep needed) m, rows.length, false) := by
  intro rows
  induction rows with
  | nil => intro m found _; rfl
  | cons row rest ih =>
    intro m found hstop
    simp only [resolveAux] at hstop ⊢
    by_cases hmem : row.nconst ∈ needed
    · rw [if_pos hmem] at hstop ⊢
      by_cases hval : validName row.primaryName
      · rw [if_pos hval] at hstop ⊢
        by_cases hk : found + 1 = k
        · rw [if_pos hk] at hstop; simp at hstop
        · rw [if_neg hk] at hstop ⊢
          simp only [bump] at hstop ⊢
          rw [ih (mapInsert m row.nconst row.primaryName) (found + 1) hstop]
          simp [List.foldl_cons, recordStep, hmem, hval]
      · rw [if_neg hval] at hstop ⊢
        by_cases hk : found = k
        · rw [if_pos hk] at hstop; simp at hstop
        · rw [if_neg hk] at hstop ⊢
          simp only [bump] at hstop ⊢
          rw [ih m found hstop]
          simp [List.foldl_cons, recordStep, hmem, hval]
    · rw [if_neg hmem] at hstop ⊢
      simp only [bump] at hstop ⊢
      rw [ih m found hstop]
      simp [List.foldl_cons, recordStep, hmem]

theorem resolveAux_no_stop_of_lt {needed : List String} {k : Nat} :
    ∀ (rows : List NameRow) (m : NameMap) (found : Nat),
      found + eventCount needed rows < k →
      (resolveAux needed k m found rows).2.2 = false := by
  intro rows
  induction rows with
  | nil => intro m found _; rfl
  | cons row rest ih =>
    intro m found hlt
    rw [eventCount_cons] at hlt
    simp only [resolveAux]
    by_cases hmem : row.nconst ∈ needed
    · rw [if_pos hmem]
      by_cases hval : validName row.primaryName
      · rw [if_pos hval]
        rw [if_pos (show row.nconst ∈ needed ∧ validName row.primaryName from ⟨hmem, hval⟩)] at hlt
        have hk : found + 1 ≠ k := by omega
        rw [if_neg hk]
        simp only [bump]
        exact ih _ (found + 1) (by omega)
      · rw [if_neg hval]
        rw [if_neg (fun hc => hval hc.2)] at hlt
        have hk : found ≠ k := by omega
        rw [if_neg hk]
        simp only [bump]
        exact ih m found (by omega)
    · rw [if_neg hmem]
      rw [if_neg (fun hc => hmem hc.1)] at hlt
      simp only [bump]
      exact ih m found (by omega)

theorem resolveAux_keys {needed : List String} {k : Nat} :
    ∀ (rows : List NameRow) (m : NameMap) (found : Nat) (p : String × String),
      p ∈ (resolveAux needed k m found rows).1 → p ∈ m ∨ p.1 ∈ needed := by
  intro rows
  induction rows with
  | nil => intro m found p hp; exact Or.inl hp
  | cons row rest ih =>
    intro m found p hp
    simp only [resolveAux] at hp
    by_cases hmem : row.nconst ∈ needed
    · rw [if_pos hmem] at hp
      by_cases hval : validName row.primaryName
      · rw [if_pos hval] at hp
        by_cases hk : found + 1 = k
        · rw [if_pos hk] at hp
          rcases mem_mapInsert hp with h1 | h1
          · exact Or.inl h1
          · exact Or.inr (h1 ▸ hmem)
        · rw [if_neg hk] at hp
          simp only [bump] at hp
          rcases ih _ (found + 1) p hp with h1 | h1
          · rcases mem_mapInsert h1 with h2 | h2
            · exact Or.inl h2
            · exact Or.inr (h2 ▸ hmem)
          · exact Or.inr h1
      · rw [if_neg hval] at hp
        by_cases hk : found = k
        · rw [if_pos hk] at hp; exact Or.inl hp
        · rw [if_neg hk] at hp
          simp only [bump] at hp
          exact ih m found p hp
    · rw [if_neg hmem] at hp
      simp only [bump] at hp
      exact ih m found p hp

theorem resolveAux_stopped_count {needed : List String} {k : Nat} :
    ∀ (rows : List NameRow) (m : NameMap) (found : Nat), found < k →
      (resolveAux needed k m found rows).2.2 = true →
      0 < (resolveAux needed k m found rows).2.1 ∧
      (resolveAux needed k m found rows).2.1 ≤ rows.length ∧
      found + eventCount needed (rows.take (resolveAux needed k m found rows).2.1) = k ∧
      found + eventCount needed (rows.take ((resolveAux needed k m found rows).2.1 - 1)) = k - 1 := by
  intro rows
  induction rows with
  | nil => intro m found _ hstop; simp [resolveAux] at hstop
  | cons row rest ih =>
    intro m found hfound hstop
    simp only [resolveAux] at hstop ⊢
    by_cases hmem : row.nconst ∈ needed
    · rw [if_pos hmem] at hstop ⊢
      by_cases hval : validName row.primaryName
      · rw [if_pos hval] at hstop ⊢
        by_cases hk : found + 1 = k
        · rw [if_pos hk] at hstop ⊢
          refine ⟨by simp, by simp, ?_, ?_⟩
          · show found + eventCount needed ((row :: rest).take 1) = k
            simp only [List.take_succ_cons, List.take_zero, eventCount_cons,
              if_pos (show row.nconst ∈ needed ∧ validName row.primaryName from ⟨hmem, hval⟩),
              eventCount_nil]
            omega
          · show found + eventCount needed ((row :: rest).take 0) = k - 1
            simp only [List.take_zero, eventCount_nil]
            omega
        · rw [if_neg hk] at hstop ⊢
          simp only [bump] at hstop ⊢
          have hfound2 : found + 1 < k := by omega
          obtain ⟨h0, h1, h2, h3⟩ := ih (mapInsert m row.nconst row.primaryName) (found + 1) hfound2 hstop
          set c := (resolveAux needed k (mapInsert m row.nconst row.primaryName) (found + 1) rest).2.1 with hc
          refine ⟨by omega, by simp [List.length_cons]; omega, ?_, ?_⟩
          · rw [List.take_succ_cons, eventCount_cons,
              if_pos (show row.nconst ∈ needed ∧ validName row.primaryName from ⟨hmem, hval⟩)]
            omega
          · obtain ⟨j, hj⟩ : ∃ j, c = j + 1 := ⟨c - 1, by omega⟩
            rw [hj] at h3 ⊢
            simp only [Nat.add_sub_cancel] at h3 ⊢
            rw [List.take_succ_cons, eventCount_cons,
              if_pos (show row.nconst ∈ needed ∧ validName row.primaryName from ⟨hmem, hval⟩)]
            omega
      · rw [if_neg hval] at hstop ⊢
        have hk : found ≠ k := by omega
        rw [if_neg hk] at hstop ⊢
        simp only [bump] at hstop ⊢
        obtain ⟨h0, h1, h2, h3⟩ := ih m found hfound hstop
        set c := (resolveAux needed k m found rest).2.1 with hc
        have hcond : ¬(row.nconst ∈ needed ∧ validName row.primaryName) := fun hc2 => hval hc2.2
        refine ⟨by omega, by simp [List.length_cons]; omega, ?_, ?_⟩
        · rw [List.take_succ_cons, eventCount_cons, if_neg hcond]
          omega
        · obtain ⟨j, hj⟩ : ∃ j, c = j + 1 := ⟨c - 1, by omega⟩
          rw [hj] at h3 ⊢
          simp only [Nat.add_sub_cancel] at h3 ⊢
          rw [List.take_succ_cons, eventCount_cons, if_neg hcond]
          omega
    · rw [if_neg hmem] at hstop ⊢
      simp only [bump] at hstop ⊢
      obtain ⟨h0, h1, h2, h3⟩ := ih m found hfound hstop
      set c := (resolveAux needed k m found rest).2.1 with hc
      have hcond : ¬(row.nconst ∈ needed ∧ validName row.primaryName) := fun hc2 => hmem hc2.1
      refine ⟨by omega, by simp [List.length_cons]; omega, ?_, ?_⟩
      · rw [List.take_succ_cons, eventCount_cons, if_neg hcond]
        omega
      · obtain ⟨j, hj⟩ : ∃ j, c = j + 1 := ⟨c - 1, by omega⟩
        rw [hj] at h3 ⊢
        simp only [Nat.add_sub_cancel] at h3 ⊢
        rw [List.take_succ_cons, eventCount_cons, if_neg hcond]
        omega

theorem resolveAux_take {needed : List String} {k : Nat} :
    ∀ (rows : List NameRow) (m : NameMap) (found : Nat),
      resolveAux needed k m found (rows.take (resolveAux needed k m found rows).2.1) =
        resolveAux needed k m found rows := by
  intro rows
  induction rows with
  | nil => intro m found; rfl
  | cons row rest ih =>
    intro m found
    by_cases hmem : row.nconst ∈ needed
    · by_cases hval : validName row.primaryName
      · by_cases hk : found + 1 = k
        · conv_rhs => rw [resolveAux]
          rw [if_pos hmem, if_pos hval, if_pos hk]
          rw [show (resolveAux needed k m found (row :: rest)).2.1 = 1 by
            rw [resolveAux, if_pos hmem, if_pos hval, if_pos hk]]
          rw [List.take_succ_cons, List.take_zero, resolveAux,
            if_pos hmem, if_pos hval, if_pos hk]
        · have hr : resolveAux needed k m found (row :: rest) =
              bump (resolveAux needed k (mapInsert m row.nconst row.primaryName) (found + 1) rest) := by
            rw [resolveAux, if_pos hmem, if_pos hval, if_neg hk]
          rw [hr]
          simp only [bump, List.take_succ_cons]
          rw [resolveAux, if_pos hmem, if_pos hval, if_neg hk, ih]
          rfl
      · by_cases hk : found = k
        · conv_rhs => rw [resolveAux]
          rw [if_pos hmem, if_neg hval, if_pos hk]
          rw [show (resolveAux needed k m found (row :: rest)).2.1 = 1 by
            rw [resolveAux, if_pos hmem, if_neg hval, if_pos hk]]
          rw [List.take_succ_cons, List.take_zero, resolveAux,
            if_pos hmem, if_neg hval, if_pos hk]
        · have hr : resolveAux needed k m found (row :: rest) =
              bump (resolveAux needed k m found rest) := by
            rw [resolveAux, if_pos hmem, if_neg hval, if_neg hk]
          rw [hr]
          simp only [bump, List.take_succ_cons]
          rw [resolveAux, if_pos hmem, if_neg hval, if_neg hk, ih]
          rfl
    · have hr : resolveAux needed k m found (row :: rest) =
          bump (resolveAux needed k m found rest) := by
        rw [resolveAux, if_neg hmem]
      rw [hr]
      simp only [bump, List.take_succ_cons]
      rw [resolveAux, if_neg hmem, ih]
      rfl

theorem resolveAux_append_stopped {needed : List String} {k : Nat} :
    ∀ (rows : List NameRow) (m : NameMap) (found : Nat) (extra : List NameRow),
      (resolveAux needed k m found rows).2.2 = true →
      resolveAux needed k m found (rows ++ extra) = resolveAux needed k m found rows := by
  intro rows
  induction rows with
  | nil => intro m found extra hstop; simp [resolveAux] at hstop
  | cons row rest ih =>
    intro m found extra hstop
    rw [List.cons_append]
    by_cases hmem : row.nconst ∈ needed
    · by_cases hval : validName row.primaryName
      · by_cases hk : found + 1 = k
        · rw [resolveAux, if_pos hmem, if_pos hval, if_pos hk,
            resolveAux, if_pos hmem, if_pos hval, if_pos hk]
        · rw [resolveAux, if_pos hmem, if_pos hval, if_neg hk] at hstop ⊢
          rw [resolveAux, if_pos hmem, if_pos hval, if_neg hk]
          simp only [bump] at hstop ⊢
          rw [ih _ _ extra hstop]
      · by_cases hk : found = k
        · rw [resolveAux, if_pos hmem, if_neg hval, if_pos hk,
            resolveAux, if_pos hmem, if_neg hval, if_pos hk]
        · rw [resolveAux, if_pos hmem, if_neg hval, if_neg hk] at hstop ⊢
          rw [resolveAux, if_pos hmem, if_neg hval, if_neg hk]
          simp only [bump] at hstop ⊢
          rw [ih _ _ extra hstop]
    · rw [resolveAux, if_neg hmem] at hstop ⊢
      rw [resolveAux, if_neg hmem]
      simp only [bump] at hstop ⊢
      rw [ih _ _ extra hstop]

/-- C1: on the spec's worked example — movies {t1, t2}, Extract A rows
(t1,n1,director), (t1,n1,actor), (t2,n2,director), Extract B n1 ↦ Alice
and n2 ↦ the null sentinel — the pipeline produces exactly the directors
table {n1: Alice} and exactly the link set {(t1, n1)}: the actor row is
excluded for wrong role and n2 for an unresolved name. -/
theorem build_worked_example :
    (build exDB exRowsA exRowsB).directors = some [("n1", "Alice")] ∧
    (build exDB exRowsA exRowsB).movie_directors = some [("t1", "n1")] := by
  decide

/-- C2: every (movie key, director key) link the pipeline produces has its
movie key in the key set loaded from the `movies` table before extraction
began. -/
theorem build_link_movie_preloaded (db : DB) (rowsA : List PrincipalsRow)
    (rowsB : List NameRow) (t n : String)
    (h : (t, n) ∈ (build db rowsA rowsB).movie_directors.getD []) :
    t ∈ get_existing_movie_ids db := by
  rw [build_links] at h
  simp only [Option.getD_some] at h
  rcases mem_linksOf.mp h with ⟨ts, hts, ht⟩
  exact extract_allIn (get_existing_movie_ids db) rowsA _ (mem_joinFilter.mp hts).1 _ ht

theorem build_link_movie_preloaded_witness :
    "t1" ∈ get_existing_movie_ids exDB :=
  build_link_movie_preloaded exDB exRowsA exRowsB "t1" "n1" (by decide)

/-- C3: every link row the pipeline inserts references a director row with
the same person-identifier: post-filter referential integrity, enforced by
the join filter rather than a storage-level foreign-key constraint. -/
theorem build_link_director_exists (db : DB) (rowsA : List PrincipalsRow)
    (rowsB : List NameRow) (t n : String)
    (h : (t, n) ∈ (build db rowsA rowsB).movie_directors.getD []) :
    ∃ name, (n, name) ∈ (build db rowsA rowsB).directors.getD [] := by
  rw [build_links] at h
  simp only [Option.getD_some] at h
  rcases mem_linksOf.mp h with ⟨ts, hts, _⟩
  rw [build_directors]
  simp only [Option.getD_some]
  obtain ⟨v, hv⟩ := Option.isSome_iff_exists.mp (mem_joinFilter.mp hts).2
  exact ⟨v, mapLookup_mem hv⟩

theorem build_link_director_exists_witness :
    ∃ name, ("n1", name) ∈ (build exDB exRowsA exRowsB).directors.getD [] :=
  build_link_director_exists exDB exRowsA exRowsB "t1" "n1" (by decide)

/-- C4: among the link rows produced in one run, no two share the same
(movie-identifier, person-identifier) pair, whatever the extracts contain:
the per-director movie collections have set semantics, so a repeated
director record yields a single link. -/
theorem build_links_nodup (db : DB) (rowsA : List PrincipalsRow)
    (rowsB : List NameRow) :
    ((build db rowsA rowsB).movie_directors.getD []).Nodup := by
  rw [build_links]
  simp only [Option.getD_some]
  apply linksOf_nodup
  · exact joinFilter_keys_nodup (extract_keys_nodup _ _)
  · intro p hp
    exact extract_vals_nodup _ _ p (mem_joinFilter.mp hp).1

/-- Extract B with a duplicate record for the same needed key: two valid
names for n1, then a valid name for n2. -/
def dupRowsB : List NameRow :=
  [{ nconst := "n1", primaryName := "Ava" },
   { nconst := "n1", primaryName := "Avy" },
   { nconst := "n2", primaryName := "Carl" }]

/-- C5 (counterexample): with needed keys {n1, n2} (k = 2) and Extract B
carrying two valid records for n1 before the record for n2, the scan stops
after two records — the `names_found` counter counts recording events with
multiplicity — even though only one distinct key has been resolved; the
record that would resolve n2 is never read, so the claim that scanning
continues while fewer than k distinct names are resolved is false. -/
theorem resolver_stops_before_k_distinct :
    resolverConsumed ["n1", "n2"] dupRowsB = 2 ∧
    resolverConsumed ["n1", "n2"] dupRowsB < dupRowsB.length ∧
    extract_director_names ["n1", "n2"] dupRowsB = [("n1", "Avy")] ∧
    (extract_director_names ["n1", "n2"] dupRowsB).length < 2 ∧
    mapLookup (extract_director_names ["n1", "n2"] dupRowsB) "n2" = none := by
  decide

theorem resolveAux_stop_of_le {needed : List String} {k : Nat} :
    ∀ (rows : List NameRow) (m : NameMap) (found : Nat),
      found < k → k ≤ found + eventCount needed rows →
      (resolveAux needed k m found rows).2.2 = true := by
  intro rows
  induction rows with
  | nil =>
    intro m found hf hle
    exfalso
    rw [eventCount_nil] at hle
    omega
  | cons row rest ih =>
    intro m found hf hle
    rw [eventCount_cons] at hle
    simp only [resolveAux]
    by_cases hmem : row.nconst ∈ needed
    · rw [if_pos hmem]
      by_cases hval : validName row.primaryName
      · rw [if_pos hval]
        rw [if_pos (show row.nconst ∈ needed ∧ validName row.primaryName from
          ⟨hmem, hval⟩)] at hle
        by_cases hk2 : found + 1 = k
        · rw [if_pos hk2]
        · rw [if_neg hk2]
          simp only [bump]
          exact ih _ (found + 1) (by omega) (by omega)
      · rw [if_neg hval]
        rw [if_neg (fun hc => hval hc.2)] at hle
        have hk2 : found ≠ k := by omega
        rw [if_neg hk2]
        simp only [bump]
        exact ih m found hf (by omega)
    · rw [if_neg hmem]
      rw [if_neg (fun hc => hmem hc.1)] at hle
      simp only [bump]
      exact ih m found hf (by omega)

/-- C5 (amended): the resolver stops scanning as soon as the count of
valid-name recording events — counted with multiplicity, so a needed key
resolved again counts again — reaches the needed-set size k: whenever
Extract B holds at least k such events (and k is positive), the resolver
takes the early-exit break, consumes a prefix of the extract on which
exactly k events occurred and whose last record is the k-th event, and no
later record affects the result (appending anything after the consumed
prefix changes nothing); and as long as the event count stays below k,
scanning continues to the end of the extract. -/
theorem resolver_early_exit_event_count (needed : List String) (rows : List NameRow) :
    (0 < needed.length → needed.length ≤ eventCount needed rows →
      resolverStopped needed rows = true ∧
      resolverConsumed needed rows ≤ rows.length ∧
      eventCount needed (rows.take (resolverConsumed needed rows)) = needed.length ∧
      eventCount needed (rows.take (resolverConsumed needed rows - 1)) = needed.length - 1 ∧
      ∀ extra, resolveAux needed needed.length [] 0
          (rows.take (resolverConsumed needed rows) ++ extra) =
        resolveAux needed needed.length [] 0 rows) ∧
    (eventCount needed rows < needed.length → resolverConsumed needed rows = rows.length) := by
  constructor
  · intro hpos hev
    have hstop : (resolveAux needed needed.length [] 0 rows).2.2 = true :=
      resolveAux_stop_of_le rows [] 0 hpos (by omega)
    obtain ⟨_, h1, h2, h3⟩ := resolveAux_stopped_count rows [] 0 hpos hstop
    refine ⟨hstop, h1, by simpa using h2, by simpa using h3, ?_⟩
    intro extra
    have htake := @resolveAux_take needed needed.length rows [] 0
    have hstop2 : (resolveAux needed needed.length [] 0
        (rows.take (resolverConsumed needed rows))).2.2 = true := by
      unfold resolverConsumed
      rw [htake]
      exact hstop
    calc resolveAux needed needed.length [] 0
          (rows.take (resolverConsumed needed rows) ++ extra)
        = resolveAux needed needed.length [] 0
            (rows.take (resolverConsumed needed rows)) :=
          resolveAux_append_stopped _ [] 0 extra hstop2
      _ = resolveAux needed needed.length [] 0 rows := htake
  · intro hlt
    have hstop := @resolveAux_no_stop_of_lt needed needed.length rows [] 0 (by omega)
    have h0 := resolveAux_not_stopped rows [] 0 hstop
    unfold resolverConsumed
    rw [h0]

theorem resolver_early_exit_event_count_witness :
    resolverStopped ["n1"] [⟨"n1", "Ava"⟩, ⟨"n2", "Bo"⟩] = true ∧
    resolverConsumed ["n1", "n2"] [⟨"n1", "Ava"⟩] = 1 := by
  constructor
  · exact ((resolver_early_exit_event_count ["n1"]
      [⟨"n1", "Ava"⟩, ⟨"n2", "Bo"⟩]).1 (by decide) (by decide)).1
  · exact (resolver_early_exit_event_count ["n1", "n2"] [⟨"n1", "Ava"⟩]).2 (by decide)

/-- C6: when Extract B holds fewer valid-name records for needed keys than
the needed-set size, the extract is exhausted before every needed key is
resolved; the resolver then scans all records, does not take the early
exit, and returns the partial mapping it accumulated — the plain fold of
the recording step, whose keys all lie in the needed set — rather than
signalling an error (missing names are left to the following filter
stage). -/
theorem resolver_returns_partial_on_exhaustion (needed : List String)
    (rows : List NameRow) (h : eventCount needed rows < needed.length) :
    resolverStopped needed rows = false ∧
    resolverConsumed needed rows = rows.length ∧
    extract_director_names needed rows = rows.foldl (recordStep needed) [] ∧
    ∀ p ∈ extract_director_names needed rows, p.1 ∈ needed := by
  have hstop : (resolveAux needed needed.length [] 0 rows).2.2 = false :=
    @resolveAux_no_stop_of_lt needed needed.length rows [] 0 (by omega)
  have heq := resolveAux_not_stopped rows [] 0 hstop
  refine ⟨hstop, ?_, ?_, ?_⟩
  · unfold resolverConsumed; rw [heq]
  · unfold extract_director_names; rw [heq]
  · intro p hp
    rcases resolveAux_keys rows [] 0 p hp with h1 | h1
    · exact absurd h1 (List.not_mem_nil p)
    · exact h1

theorem resolver_returns_partial_on_exhaustion_witness :
    resolverStopped ["n1", "n2"] [⟨"n1", "Ava"⟩] = false :=
  (resolver_returns_partial_on_exhaustion ["n1", "n2"] [⟨"n1", "Ava"⟩] (by decide)).1

/-- C7: one Extract A record adds its movie key to the multimap entry of
its director key exactly when the role equals "director", both key fields
are non-empty, and the movie key is in the pre-loaded key set; a record
failing any conjunct leaves the multimap unchanged, and on success the
entry's movie set is the old set plus the movie key (set semantics). -/
theorem relStep_adds_iff (ex : List String) (mm : Multimap) (row : PrincipalsRow) :
    relStep ex mm row =
      (if row.category = "director" ∧ row.tconst ≠ "" ∧ row.nconst ≠ "" ∧ row.tconst ∈ ex
       then mmInsert mm row.nconst row.tconst else mm) ∧
    ∀ t, t ∈ mmGet (mmInsert mm row.nconst row.tconst) row.nconst ↔
      (t ∈ mmGet mm row.nconst ∨ t = row.tconst) := by
  constructor
  · unfold relStep
    by_cases h1 : row.category ≠ "director"
    · rw [if_pos h1, if_neg (fun hc => h1 hc.1)]
    · rw [if_neg h1]
      push_neg at h1
      by_cases h2 : row.tconst = "" ∨ row.nconst = "" ∨ row.tconst ∉ ex
      · rw [if_pos h2, if_neg (fun hc => by
          rcases h2 with h | h | h
          · exact hc.2.1 h
          · exact hc.2.2.1 h
          · exact h hc.2.2.2)]
      · push_neg at h2
        rw [if_neg (show ¬(row.tconst = "" ∨ row.nconst = "" ∨ row.tconst ∉ ex) from by
            push_neg; exact h2),
          if_pos ⟨h1, h2.1, h2.2.1, h2.2.2⟩]
  · intro t
    rw [mmGet_mmInsert_self]
    by_cases hv : row.tconst ∈ mmGet mm row.nconst
    · rw [if_pos hv]
      constructor
      · exact Or.inl
      · rintro (h | rfl)
        · exact h
        · exact hv
    · rw [if_neg hv]
      simp [List.mem_append]

/-- C8: rerunning the full pipeline on unchanged inputs leaves the derived
tables identical, row for row: a run first drops all derived tables and
rebuilds them from the untouched `movies` table and the two extracts, so
the second run's `directors` and `movie_directors` equal the first
run's. -/
theorem build_idempotent (db : DB) (rowsA : List PrincipalsRow) (rowsB : List NameRow) :
    (build (build db rowsA rowsB) rowsA rowsB).directors =
      (build db rowsA rowsB).directors ∧
    (build (build db rowsA rowsB) rowsA rowsB).movie_directors =
      (build db rowsA rowsB).movie_directors := by
  have hm : get_existing_movie_ids (build db rowsA rowsB) = get_existing_movie_ids db := by
    unfold get_existing_movie_ids
    rw [build_movies]
  constructor
  · rw [build_directors, build_directors, hm]
  · rw [build_links, build_links, hm]

/-- C9: no stage of the pipeline modifies the pre-existing `movies` table:
dropping, creating, and both insert stages leave its rows untouched, the
whole run leaves them untouched, and the key load is a pure projection of
the key column. -/
theorem movies_table_unchanged (db : DB) (rowsA : List PrincipalsRow)
    (rowsB : List NameRow) (names : NameMap) (dm : Multimap) :
    (drop_existing_tables db).movies = db.movies ∧
    (create_tables db).movies = db.movies ∧
    (insert_directors db names).movies = db.movies ∧
    (insert_movie_directors db dm).movies = db.movies ∧
    (build db rowsA rowsB).movies = db.movies ∧
    get_existing_movie_ids db = db.movies.map Prod.fst :=
  ⟨rfl, rfl, rfl, rfl, rfl, rfl⟩

/-- C10: every director row the pipeline inserts participates in at least
one link, and conversely: a person-identifier appears in the `directors`
table exactly when it appears in some `movie_directors` row — names are
resolved only for multimap keys, every multimap entry holds at least one
movie, and the filter keeps exactly the entries with a resolved name. -/
theorem directors_iff_linked (db : DB) (rowsA : List PrincipalsRow)
    (rowsB : List NameRow) (n : String) :
    (∃ name, (n, name) ∈ (build db rowsA rowsB).directors.getD []) ↔
    (∃ t, (t, n) ∈ (build db rowsA rowsB).movie_directors.getD []) := by
  rw [build_directors, build_links]
  simp only [Option.getD_some]
  set ex := get_existing_movie_ids db with hex
  set dm := extract_director_relationships ex rowsA with hdm
  set names := extract_director_names (mmKeys dm) rowsB with hnames
  constructor
  · rintro ⟨name, hmem⟩
    have hn : n ∈ mmKeys dm := by
      rw [hnames] at hmem
      unfold extract_director_names at hmem
      rcases resolveAux_keys rowsB [] 0 (n, name) hmem with h1 | h1
      · exact absurd h1 (List.not_mem_nil _)
      · exact h1
    rcases List.mem_map.mp hn with ⟨p, hp, hfst⟩
    obtain ⟨t, ht⟩ := List.exists_mem_of_ne_nil p.2 (extract_vals_nonempty ex rowsA p hp)
    refine ⟨t, mem_linksOf.mpr ⟨p.2, ?_, ht⟩⟩
    have hsome : (mapLookup names p.1).isSome := by
      rw [hfst]; exact mapLookup_isSome_of_mem hmem
    have hpe : (n, p.2) = p := by rw [← hfst]
    rw [hpe]
    exact mem_joinFilter.mpr ⟨hp, hsome⟩
  · rintro ⟨t, hlink⟩
    rcases mem_linksOf.mp hlink with ⟨ts, hts, _⟩
    obtain ⟨v, hv⟩ := Option.isSome_iff_exists.mp (mem_joinFilter.mp hts).2
    exact ⟨v, mapLookup_mem hv⟩
